import Mathlib

/-
Verification development for the nebula ingestion-and-placement control
plane.  The macro/template engine is embedded from src/meta/Macro.h, the
spec repository from src/ingest/SpecRepo.cpp and the block manager from
src/execution/BlockManager.h.  A path template is modelled as the token
list the placeholder scanner produces: literal segments interleaved with
placeholder names (the source scans a template for `(\w+)` groups wrapped
in braces, case-insensitively; tokenization is deterministic, so the token
list carries exactly the information the engine reads).
-/

namespace Nebula

/-- The `PatternMacro` enum of src/meta/Macro.h. -/
inductive PatternMacro
  | DAILY
  | HOURLY
  | MINUTELY
  | SECONDLY
  | TIMESTAMP
  | INVALID
deriving DecidableEq, Repr

/-- Underlying integer values of the enum constants: DAILY = 0x1,
HOURLY = 0x2, MINUTELY = 0x4, SECONDLY = 0x8, TIMESTAMP = 0x16 (decimal 22,
as written in the source), INVALID = 0. -/
def PatternMacro.val : PatternMacro → Nat
  | .DAILY => 1
  | .HOURLY => 2
  | .MINUTELY => 4
  | .SECONDLY => 8
  | .TIMESTAMP => 22
  | .INVALID => 0

/-- One token of a path template: a literal segment, or a placeholder
written in braces in the source template (the stored string is the
captured name, case preserved). -/
inductive Token
  | lit : String → Token
  | hole : String → Token
deriving DecidableEq, Repr

/-- A template as the placeholder scanner reads it. -/
abbrev Template := List Token

/-- ASCII lowercasing of a placeholder name, character by character (the
`Chars::lower` normalization the scanner applies before the map lookup). -/
def lowerStr (s : String) : String := ⟨s.data.map Char.toLower⟩

/-- `MACRO_MAP`: lowercased placeholder name to macro flag. -/
def macroOf (s : String) : Option PatternMacro :=
  if s == "date" then some .DAILY
  else if s == "hour" then some .HOURLY
  else if s == "minute" then some .MINUTELY
  else if s == "second" then some .SECONDLY
  else if s == "timestamp" then some .TIMESTAMP
  else none

/-- Valid flag combination for the whole-template check, as the `Macro`
class builds them: each level ORs its parent's combination. -/
def comboTIMESTAMP : Nat := PatternMacro.TIMESTAMP.val

/-- Valid combination for DAILY: just the DAILY flag. -/
def comboDAILY : Nat := PatternMacro.DAILY.val

/-- Valid combination for HOURLY: DAILY and HOURLY flags. -/
def comboHOURLY : Nat := comboDAILY ||| PatternMacro.HOURLY.val

/-- Valid combination for MINUTELY: DAILY, HOURLY and MINUTELY flags. -/
def comboMINUTELY : Nat := comboHOURLY ||| PatternMacro.MINUTELY.val

/-- Valid combination for SECONDLY: all four time flags. -/
def comboSECONDLY : Nat := comboMINUTELY ||| PatternMacro.SECONDLY.val

/-- The OR of the macro flags the scanner observes in a template
(`extract`'s accumulation loop): each placeholder name is lowercased,
looked up in `MACRO_MAP`, and its flag ORed in; unrecognized names and
literal segments contribute nothing. -/
def flagsOr (input : Template) : Nat :=
  input.foldl
    (fun c t =>
      match t with
      | .hole name =>
        match macroOf (lowerStr name) with
        | some m => c ||| m.val
        | none => c
      | .lit _ => c)
    0

/-- `Macro::extract`: OR the flags found in the template, then test the
code against the valid combinations in the source's order (TIMESTAMP,
DAILY, HOURLY, MINUTELY, SECONDLY); anything else is INVALID. -/
def extract (input : Template) : PatternMacro :=
  let code := flagsOr input
  if code == comboTIMESTAMP then .TIMESTAMP
  else if code == comboDAILY then .DAILY
  else if code == comboHOURLY then .HOURLY
  else if code == comboMINUTELY then .MINUTELY
  else if code == comboSECONDLY then .SECONDLY
  else .INVALID

/-- Two-digit zero padding, as the time formatting helpers print hour,
minute, second, month and day fields. -/
def pad2 (n : Nat) : String :=
  if n < 10 then "0" ++ toString n else toString n

/-- Civil date (year, month, day) from a count of days since 1970-01-01,
the standard era-based conversion the time library performs. -/
def civilFromDays (days : Nat) : Nat × Nat × Nat :=
  let z := days + 719468
  let era := z / 146097
  let doe := z % 146097
  let yoe := (doe - doe / 1460 + doe / 36524 - doe / 146096) / 365
  let y := yoe + era * 400
  let doy := doe - (365 * yoe + yoe / 4 - yoe / 100)
  let mp := (5 * doy + 2) / 153
  let d := doy - (153 * mp + 2) / 5 + 1
  let m := if mp < 10 then mp + 3 else mp - 9
  (if m ≤ 2 then y + 1 else y, m, d)

/-- Modelled from the spec: `Evidence::fmt_ymd_dash` (common/Evidence.h is
not among the staged files); a watermark rendered as `YYYY-MM-DD`. -/
def fmtYmdDash (w : Nat) : String :=
  let c := civilFromDays (w / 86400)
  toString c.1 ++ "-" ++ pad2 c.2.1 ++ "-" ++ pad2 c.2.2

/-- Modelled from the spec: `Evidence::fmt_hour`; the hour field `HH`
(00-23) of the watermark. -/
def fmtHour (w : Nat) : String := pad2 (w / 3600 % 24)

/-- Modelled from the spec: `Evidence::fmt_minute`; the minute field `MM`
(00-59) of the watermark. -/
def fmtMinute (w : Nat) : String := pad2 (w / 60 % 60)

/-- Modelled from the spec: `Evidence::fmt_second`; the second field `SS`
(00-59) of the watermark. -/
def fmtSecond (w : Nat) : String := pad2 (w % 60)

/-- `Macro::getTimeStringForMacro`: the string a macro renders to at a
watermark (default string empty for INVALID). -/
def getTimeStringForMacro (m : PatternMacro) (w : Nat) : String :=
  match m with
  | .TIMESTAMP => toString w
  | .DAILY => fmtYmdDash w
  | .HOURLY => fmtHour w
  | .MINUTELY => fmtMinute w
  | .SECONDLY => fmtSecond w
  | .INVALID => ""

/-- The placeholder name `MACRO_REGEX` matches for each macro (the regex
is the braced name, case-insensitive; INVALID has no entry and is never
passed to `replaceTimeMacro`). -/
def macroKey : PatternMacro → String
  | .DAILY => "date"
  | .HOURLY => "hour"
  | .MINUTELY => "minute"
  | .SECONDLY => "second"
  | .TIMESTAMP => "timestamp"
  | .INVALID => ""

/-- The per-occurrence effect of `Macro::replaceTimeMacro`: a placeholder
matching the macro's name (case-insensitively) becomes the rendered time
string; anything else is untouched. -/
def replaceTok (m : PatternMacro) (w : Nat) : Token → Token
  | .hole name =>
    if lowerStr name == macroKey m then Token.lit (getTimeStringForMacro m w)
    else Token.hole name
  | .lit s => Token.lit s

/-- `Macro::replaceTimeMacro`: replace every occurrence of the macro's
placeholder (matched case-insensitively) by its rendered time string. -/
def replaceTimeMacro (m : PatternMacro) (input : Template) (w : Nat) : Template :=
  input.map (replaceTok m w)

/-- `ALL_TIME_MACROS`, in the source's order. -/
def ALL_TIME_MACROS : List PatternMacro :=
  [.DAILY, .HOURLY, .MINUTELY, .SECONDLY]

/-- `Macro::materialize`: INVALID returns the template unchanged,
TIMESTAMP substitutes its own placeholder, and a time macro runs the
DAILY, HOURLY, MINUTELY, SECONDLY substitutions guarded by the numeric
comparison `macro >= macroToCheck` on enum values. -/
def materialize (m : PatternMacro) (holder : Template) (w : Nat) : Template :=
  if m == .INVALID then holder
  else if m == .TIMESTAMP then replaceTimeMacro m holder w
  else
    ALL_TIME_MACROS.foldl
      (fun str mc => if mc.val ≤ m.val then replaceTimeMacro mc str w else str)
      holder

/-- Modelled from the spec: the duplicate-key behaviour of the
`MACRO_SECONDS` map initializer (the map type comes from common/Hash.h,
not among the staged files; the spec reads the second MINUTELY entry as
overwriting the earlier one).  Insert with overwrite. -/
def insertOverwrite (m : List (PatternMacro × Nat)) (kv : PatternMacro × Nat) :
    List (PatternMacro × Nat) :=
  if m.any (fun p => p.1 == kv.1) then
    m.map (fun p => if p.1 == kv.1 then kv else p)
  else
    m ++ [kv]

/-- The `MACRO_SECONDS` map as its initializer list builds it: DAILY maps
to 86400, HOURLY to 3600, then MINUTELY is given 60 and then 1 (the
second entry overwrites; there is no SECONDLY entry in the source). -/
def MACRO_SECONDS : List (PatternMacro × Nat) :=
  [(.DAILY, 86400), (.HOURLY, 3600), (.MINUTELY, 60), (.MINUTELY, 1)].foldl
    insertOverwrite []

/-- `Macro::seconds`: look the macro up in `MACRO_SECONDS`, else 0. -/
def seconds (m : PatternMacro) : Nat :=
  match MACRO_SECONDS.find? (fun p => p.1 == m) with
  | some p => p.2
  | none => 0

/-- Follows the claim's words, for comparison with the source's encoding:
the flag each macro carries under the claimed bitflag encoding DAILY = 1,
HOURLY = 2, MINUTELY = 4, SECONDLY = 8, TIMESTAMP = 16. -/
def claimFlag : PatternMacro → Nat
  | .DAILY => 1
  | .HOURLY => 2
  | .MINUTELY => 4
  | .SECONDLY => 8
  | .TIMESTAMP => 16
  | .INVALID => 0

/-- Follows the claim's words: the OR of the macro flags found in a
template under the claimed encoding (TIMESTAMP = 16). -/
def claimFlagsOr (input : Template) : Nat :=
  input.foldl
    (fun c t =>
      match t with
      | .hole name =>
        match macroOf (lowerStr name) with
        | some m => c ||| claimFlag m
        | none => c
      | .lit _ => c)
    0

/-- The template "prefix/hour-hole/minute-hole/timestamp-hole": its flags
OR to 2 ||| 4 ||| 22 = 22 under the source's encoding, colliding with the
TIMESTAMP constant 0x16. -/
def collisionTemplate : Template :=
  [.lit "x/", .hole "hour", .hole "minute", .hole "timestamp"]

/-- Whether a token list still contains a recognized placeholder (a hole
whose lowercased name is one of date, hour, minute, second, timestamp). -/
def hasRecognizedHole (ts : Template) : Bool :=
  ts.any fun t =>
    match t with
    | .hole n => (macroOf (lowerStr n)).isSome
    | .lit _ => false

/-- The four time macros of the containment lattice. -/
def isTimeMacro : PatternMacro → Bool
  | .DAILY => true
  | .HOURLY => true
  | .MINUTELY => true
  | .SECONDLY => true
  | .TIMESTAMP => false
  | .INVALID => false

/-- Follows the claim's words: the one-pass substitution that replaces
every placeholder whose macro is a time macro at or below the requested
level with its rendered time string and preserves every other token. -/
def substAtOrBelow (m : PatternMacro) (w : Nat) : Token → Token
  | .hole name =>
    match macroOf (lowerStr name) with
    | some m2 =>
      if isTimeMacro m2 && decide (m2.val ≤ m.val) then
        Token.lit (getTimeStringForMacro m2 w)
      else
        Token.hole name
    | none => Token.hole name
  | .lit s => Token.lit s

/-- Follows the claim's words: substitute only the timestamp placeholder
with the decimal watermark, preserving every other token. -/
def substTimestampOnly (w : Nat) : Token → Token
  | .hole name =>
    if lowerStr name == "timestamp" then Token.lit (toString w) else Token.hole name
  | .lit s => Token.lit s

/-
===== Cluster data model =====
The node, spec and registry types live in headers that are not among the
staged files (meta/NNode.h, meta/Specs.h, meta/TableSpec.h,
execution/TableState.h); they are modelled from the spec's data-model
section and used by the staged SpecRepo.cpp and BlockManager.h code.
-/

/-- Modelled from the spec: `NNode` (meta/NNode.h is not staged) — a
worker node with canonical address, active flag and size in bytes;
equality and hashing are by the canonical address. -/
structure NNode where
  addr : String
  active : Bool
  size : Nat
deriving DecidableEq, Repr

/-- A default node value standing for `NNode::invalid()` where an access
needs a fallback. -/
def invalidNode : NNode := ⟨"", false, 0⟩

/-- Modelled from the spec: the spec lifecycle states NEW and READY. -/
inductive SpecState
  | NEW
  | READY
deriving DecidableEq, Repr

/-- Modelled from the spec: an ingestion spec (meta/Specs.h is not
staged) — id, lifecycle state, affinity (`none` standing for the invalid
node), and whether its version differs from the last-synced one (the
second disjunct of `needSync`). -/
structure IngestSpec where
  id : String
  state : SpecState
  affinity : Option NNode
  versionDiff : Bool
deriving DecidableEq, Repr

/-- Modelled from the spec: `assigned()` — the spec has a valid affinity
node. -/
def IngestSpec.assigned (s : IngestSpec) : Bool := s.affinity.isSome

/-- Modelled from the spec: `needSync()` — state is NEW, or the version
differs from the last-synced one. -/
def IngestSpec.needSync (s : IngestSpec) : Bool := s.state == .NEW || s.versionDiff

/-- The `spec->affinity(node)` setter. -/
def setAffinity (s : IngestSpec) (n : NNode) : IngestSpec := { s with affinity := some n }

/-- The `spec->state(state)` setter. -/
def setState (s : IngestSpec) (st : SpecState) : IngestSpec := { s with state := st }

/-- `resetSpec` of SpecRepo.cpp: clear the affinity to the invalid node
and set the state back to NEW. -/
def resetSpec (s : IngestSpec) : IngestSpec := { s with affinity := none, state := .NEW }

/-- Modelled from the spec: a `BatchBlock`'s metadata — owning table,
producing spec id, and raw byte size. -/
structure BatchBlock where
  table : String
  specId : String
  rawBytes : Nat
deriving DecidableEq, Repr

/-- Modelled from the spec: a per-(node, table) `TableState`
(execution/TableState.h is not staged) — the table name and its loaded
blocks. -/
structure TableState where
  table : String
  blocks : List BatchBlock
deriving DecidableEq, Repr

/-- Set-insert into a string list (the `emplace`/`insert` of the string
sets the block manager and table states use). -/
def insertStr (l : List String) (s : String) : List String :=
  if l.contains s then l else l ++ [s]

/-- Set-insert of a (table, specId) pair (the `TableSpecSet` insert). -/
def insertPair (l : List (String × String)) (p : String × String) :
    List (String × String) :=
  if l.contains p then l else l ++ [p]

/-- Modelled from the spec: `TableState::specs()` — the distinct spec ids
of the blocks. -/
def TableState.specs (ts : TableState) : List String :=
  ts.blocks.foldl (fun acc b => insertStr acc b.specId) []

/-- Modelled from the spec: `TableState::rawBytes()` — total raw bytes of
the blocks. -/
def TableState.rawBytes (ts : TableState) : Nat :=
  ts.blocks.foldl (fun acc b => acc + b.rawBytes) 0

/-- Modelled from the spec: `TableState::expired(pred)` — walk the blocks,
remove those the predicate condemns, and return the removed (table,
specId) identifiers as a set together with the surviving state. -/
def TableState.expired (pred : String → String → Bool) (ts : TableState) :
    List (String × String) × TableState :=
  let removed := ts.blocks.filter (fun b => pred b.table b.specId)
  let kept := ts.blocks.filter (fun b => !pred b.table b.specId)
  (removed.foldl (fun acc b => insertPair acc (b.table, b.specId)) [],
   { ts with blocks := kept })

/-- `TableStates` of BlockManager.h: table name to table state. -/
abbrev TableStates := List (String × TableState)

/-- The block manager's state: the per-node map `data_` (keyed by node,
compared by canonical address) and the `emptySpecs_` set. -/
structure BMState where
  data : List (NNode × TableStates)
  emptySpecs : List String
deriving DecidableEq, Repr

/-- Lookup in `data_` under `NodeEqual` (canonical-address equality). -/
def lookupNode (data : List (NNode × TableStates)) (n : NNode) : Option TableStates :=
  match data.find? (fun p => p.1.addr == n.addr) with
  | some p => some p.2
  | none => none

/-- `BlockManager::states`: `data_[node]` through `operator[]` — the
node's entry, a fresh empty entry being inserted first when the node is
absent. -/
def BMState.states (bm : BMState) (n : NNode) : TableStates × BMState :=
  match lookupNode bm.data n with
  | some tss => (tss, bm)
  | none => ([], { bm with data := bm.data ++ [(n, [])] })

/-- `BlockManager::swap`: `data_[node] = states` — replace the node's
entry, inserting it when absent (the stored key is kept on replacement,
as `operator[]` keeps the existing key). -/
def BMState.swap (bm : BMState) (n : NNode) (tss : TableStates) : BMState :=
  if (bm.data.find? (fun p => p.1.addr == n.addr)).isSome then
    { bm with data := bm.data.map (fun p => if p.1.addr == n.addr then (p.1, tss) else p) }
  else
    { bm with data := bm.data ++ [(n, tss)] }

/-- The node loop of `BlockManager::tables`: union each node's table
names into the accumulator and stop after the first node at which the
accumulated set has reached the limit. -/
def tablesLoop (limit : Nat) : List (NNode × TableStates) → List String → List String
  | [], acc => acc
  | entry :: rest, acc =>
    if limit ≤ (entry.2.foldl (fun a ts => insertStr a ts.1) acc).length then
      entry.2.foldl (fun a ts => insertStr a ts.1) acc
    else
      tablesLoop limit rest (entry.2.foldl (fun a ts => insertStr a ts.1) acc)

/-- `BlockManager::tables(limit)`. -/
def BMState.tables (bm : BMState) (limit : Nat) : List String :=
  tablesLoop limit bm.data []

/-- The largest number of table entries any single node's state holds. -/
def maxNodeTables : List (NNode × TableStates) → Nat
  | [] => 0
  | e :: rest => max e.2.length (maxNodeTables rest)

/-- `BlockManager::activeSpecs`: the union of spec ids over the table
states of every node the cluster snapshot lists (the loop iterates the
snapshot's nodes without testing `isActive`). -/
def activeSpecsOf (clusterNodes : List NNode) (data : List (NNode × TableStates)) :
    List String :=
  clusterNodes.foldl
    (fun acc n =>
      match lookupNode data n with
      | some tss => tss.foldl (fun a ts => ts.2.specs.foldl insertStr a) acc
      | none => acc)
    []

/-- Modelled from the spec: a table's registry — the table name and the
specs it owns; `online(id)` is membership of the id among them. -/
structure TableRegistry where
  table : String
  specs : List IngestSpec
deriving DecidableEq, Repr

/-- Modelled from the spec: `registry.online(id)`. -/
def TableRegistry.online (r : TableRegistry) (id : String) : Bool :=
  r.specs.any (·.id == id)

/-- Modelled from the spec: `TableService::query` — the registry for a
table name, `none` standing for the empty sentinel registry. -/
def queryRegistry (tables : List TableRegistry) (name : String) : Option TableRegistry :=
  tables.find? (·.table == name)

/-- Whether the registry for a table lists a spec id as online (false on
the empty sentinel registry). -/
def onlineAt (tables : List TableRegistry) (t id : String) : Bool :=
  match queryRegistry tables t with
  | some r => r.online id
  | none => false

/-- Every spec of every registry, in registry order. -/
def allSpecs (tables : List TableRegistry) : List IngestSpec :=
  (tables.map (·.specs)).flatten

/-- The coordinator-side state the reconciliation loop reads and writes:
the cluster node list (ClusterInfo), the table registries (TableService)
and the block manager. -/
structure RepoState where
  clusterNodes : List NNode
  tables : List TableRegistry
  bm : BMState
deriving DecidableEq, Repr

/-- `TaskState` of the node RPC. -/
inductive TaskState
  | QUEUE
  | INPROGRESS
  | SUCCEEDED
  | FAILED
deriving DecidableEq, Repr

/-- The client's reply to an INGESTION task for a spec sent to a node —
the way `clientMaker` parametrizes `assign`. -/
abbrev ClientReply := NNode → IngestSpec → TaskState

/-
===== SpecRepo::expire (src/ingest/SpecRepo.cpp) =====
-/

/-- The predicate `SpecRepo::expire` supplies to `TableState::expired`: a
block is expired unless a nonempty registry lists its spec as online. -/
def expirePred (tables : List TableRegistry) (table id : String) : Bool :=
  match queryRegistry tables table with
  | some r => !(r.online id)
  | none => true

/-- The per-node accumulation of `SpecRepo::expire` over the node's table
states: the expired (table, specId) set, the updated states, and the sum
of the surviving raw bytes. -/
def nodeExpire (tables : List TableRegistry) (tss : TableStates) :
    List (String × String) × TableStates × Nat :=
  tss.foldl
    (fun acc entry =>
      let r := entry.2.expired (expirePred tables)
      (r.1.foldl insertPair acc.1, acc.2.1 ++ [(entry.1, r.2)], acc.2.2 + r.2.rawBytes))
    ([], [], 0)

/-- One active-node iteration of `SpecRepo::expire`: pull the node's view
into the block manager (`client->update()`, modelled from the spec as a
swap of the remote snapshot `nodeView node`), extract the expired pairs,
write the surviving states back, and publish the node's size. An
inactive node is skipped. -/
def expireStep (nodeView : NNode → TableStates) (st : RepoState) (n : NNode) :
    RepoState × List (String × String) :=
  if n.active then
    let bm1 := st.bm.swap n (nodeView n)
    let got := bm1.states n
    let r := nodeExpire st.tables got.1
    let bm2 := got.2.swap n r.2.1
    let cn := st.clusterNodes.map (fun m => if m.addr == n.addr then { m with size := r.2.2 } else m)
    ({ st with bm := bm2, clusterNodes := cn }, r.1)
  else
    (st, [])

/-- `SpecRepo::expire`: clear the empty-spec set, iterate the node
snapshot, and return the total number of expired spec ids together with
the post state and every (table, specId) pair reported expired. -/
def expireRun (nodeView : NNode → TableStates) (st : RepoState) :
    Nat × RepoState × List (String × String) :=
  let st0 : RepoState := { st with bm := { st.bm with emptySpecs := [] } }
  st0.clusterNodes.foldl
    (fun acc n =>
      let r := expireStep nodeView acc.2.1 n
      (acc.1 + r.2.length, r.1, acc.2.2 ++ r.2))
    (0, st0, [])

/-
===== SpecRepo::assign (src/ingest/SpecRepo.cpp) =====
-/

/-- The ascending-by-size sort of the node snapshot (`std::sort` with the
size comparator; insertion sort realizes one admissible order). -/
def insertBySize (n : NNode) : List NNode → List NNode
  | [] => [n]
  | m :: rest => if n.size ≤ m.size then n :: m :: rest else m :: insertBySize n rest

/-- The sorted node snapshot `assign` walks. -/
def sortNodes (ns : List NNode) : List NNode := ns.foldr insertBySize []

/-- The placement walk of `SpecRepo::assign`: probe the ring starting at
the cursor; the walk visits every position once and gives up when the
cursor would return to its start without having met an active node. -/
def ringFind (nodes : List NNode) (start : Nat) : Option Nat :=
  (List.range nodes.length).findSome? fun k =>
    if (nodes.getD ((start + k) % nodes.length) invalidNode).active then
      some ((start + k) % nodes.length)
    else none

/-- The outcome of processing one spec in `assign`'s inner loop. -/
structure StepOut where
  spec : IngestSpec
  idx : Nat
  tasks : Nat
  aborted : Bool
deriving DecidableEq, Repr

/-- The sync send at the end of `assign`'s inner loop: when the spec
needs a sync, count the task, ask the client, and mark the spec READY on
SUCCEEDED (FAILED and QUEUE leave the state for the next cycle). -/
def syncSpec (client : ClientReply) (idx tasks : Nat) (s : IngestSpec) : StepOut :=
  if s.needSync then
    ⟨if client (s.affinity.getD invalidNode) s == .SUCCEEDED then setState s .READY else s,
     idx, tasks + 1, false⟩
  else
    ⟨s, idx, tasks, false⟩

/-- The orphan-reset clause of `assign`'s inner loop: a spec that is
assigned but seen in neither the active-spec nor the empty-spec cache is
reset; any other spec passes through. -/
def resetCheck (active empty : List String) (s0 : IngestSpec) : IngestSpec :=
  if s0.assigned && !active.contains s0.id && !empty.contains s0.id then resetSpec s0
  else s0

/-- One iteration of `assign`'s inner loop: the orphan reset, then the
placement walk for an unassigned spec (advancing the cursor past the
chosen node; a failed walk aborts the whole call), then the sync send. -/
def stepSpec (nodes : List NNode) (active empty : List String) (client : ClientReply)
    (idx tasks : Nat) (s0 : IngestSpec) : StepOut :=
  if (resetCheck active empty s0).assigned then
    syncSpec client idx tasks (resetCheck active empty s0)
  else
    match ringFind nodes idx with
    | none => ⟨resetCheck active empty s0, idx, tasks, true⟩
    | some i =>
      syncSpec client ((i + 1) % nodes.length) tasks
        (setAffinity (resetCheck active empty s0) (nodes.getD i invalidNode))

/-- The outcome of processing a spec list in `assign`. -/
structure LoopOut where
  specs : List IngestSpec
  idx : Nat
  tasks : Nat
  aborted : Bool
deriving DecidableEq, Repr

/-- `assign`'s inner loop over one registry's specs; on abort the
remaining specs are left as they were. -/
def assignSpecList (nodes : List NNode) (active empty : List String)
    (client : ClientReply) : Nat → Nat → List IngestSpec → LoopOut
  | idx, tasks, [] => ⟨[], idx, tasks, false⟩
  | idx, tasks, s :: rest =>
    let r := stepSpec nodes active empty client idx tasks s
    if r.aborted then
      ⟨r.spec :: rest, r.idx, r.tasks, true⟩
    else
      let q := assignSpecList nodes active empty client r.idx r.tasks rest
      ⟨r.spec :: q.specs, q.idx, q.tasks, q.aborted⟩

/-- The outcome of processing the registry list in `assign`. -/
structure RegsOut where
  regs : List TableRegistry
  idx : Nat
  tasks : Nat
  aborted : Bool
deriving DecidableEq, Repr

/-- `assign`'s outer loop over the table registries; on abort the
remaining registries are left as they were. -/
def assignRegList (nodes : List NNode) (active empty : List String)
    (client : ClientReply) : Nat → Nat → List TableRegistry → RegsOut
  | idx, tasks, [] => ⟨[], idx, tasks, false⟩
  | idx, tasks, reg :: rest =>
    let r := assignSpecList nodes active empty client idx tasks reg.specs
    if r.aborted then
      ⟨{ reg with specs := r.specs } :: rest, r.idx, r.tasks, true⟩
    else
      let q := assignRegList nodes active empty client r.idx r.tasks rest
      ⟨{ reg with specs := r.specs } :: q.regs, q.idx, q.tasks, q.aborted⟩

/-- `SpecRepo::assign`: snapshot and sort the nodes (empty snapshot
returns (0,0) at once), cache the empty-spec and active-spec sets, run
the loop from cursor 0, and return ((tasks sent, nodes considered), the
post state). -/
def assign (client : ClientReply) (st : RepoState) : (Nat × Nat) × RepoState :=
  let nodes := sortNodes st.clusterNodes
  if nodes.length == 0 then ((0, 0), st)
  else
    let empty := st.bm.emptySpecs
    let active := activeSpecsOf st.clusterNodes st.bm.data
    let r := assignRegList nodes active empty client 0 0 st.tables
    ((r.tasks, nodes.length), { st with tables := r.regs })

/-
===== SpecRepo::lost (src/ingest/SpecRepo.cpp) =====
-/

/-- The affinity-address test of `SpecRepo::lost`:
`spec->affinity().toString() == addr`. -/
def lostHit (addr : String) (s : IngestSpec) : Bool :=
  match s.affinity with
  | some n => n.addr == addr
  | none => false

/-- `SpecRepo::lost`: for every registry, reset every assigned spec whose
affinity address equals the lost address, counting the resets. -/
def lostRun (addr : String) (tables : List TableRegistry) : Nat × List TableRegistry :=
  tables.foldl
    (fun acc reg =>
      let r := reg.specs.foldl
        (fun a s =>
          if s.assigned && lostHit addr s then (a.1 + 1, a.2 ++ [resetSpec s])
          else (a.1, a.2 ++ [s]))
        (0, [])
      (acc.1 + r.1, acc.2 ++ [{ reg with specs := r.2 }]))
    (0, [])

/-
===== Spec-side helpers the claims compare the code against =====
-/

/-- Whether a spec's affinity node carries an active flag. -/
def activeAffinity (s : IngestSpec) : Bool :=
  match s.affinity with
  | some n => n.active
  | none => false

/-- Follows the amended claim's words: a spec is covered when its
affinity node is active, or its id was seen in the active-spec cache or
the empty-spec set. -/
def coveredB (active empty : List String) (s : IngestSpec) : Bool :=
  activeAffinity s || active.contains s.id || empty.contains s.id

/-- A spec the placement walk must place: unassigned on arrival, or
assigned but seen in neither the active-spec nor the empty-spec cache
(the orphan reset then leaves it unassigned). -/
def needsPlacement (active empty : List String) (s : IngestSpec) : Bool :=
  !s.assigned || (!active.contains s.id && !empty.contains s.id)

/-- Follows the claim's words: the effect of `lost(addr)` on one spec —
reset exactly the assigned specs whose affinity address is the lost one,
leave every other spec unchanged. -/
def lostMark (addr : String) (s : IngestSpec) : IngestSpec :=
  if s.assigned && lostHit addr s then resetSpec s else s

/-- Follows the claim's words: the number of INGESTION tasks `assign` has
sent when it first reaches a spec the placement walk must place — each
earlier spec needing a sync contributes one task. -/
def tasksUntilBlocked (active empty : List String) : List IngestSpec → Nat
  | [] => 0
  | s :: rest =>
    if needsPlacement active empty s then 0
    else (if s.needSync then 1 else 0) + tasksUntilBlocked active empty rest

/-- A block manager with one node holding two tables. -/
def cexTablesBM : BMState :=
  ⟨[(⟨"n1", true, 0⟩, [("a", ⟨"a", []⟩), ("b", ⟨"b", []⟩)])], []⟩

/-- A witness cluster: one active node whose view holds blocks for spec
ids a and b of table t, while the registry lists only b. -/
def wNode : NNode := ⟨"A", true, 0⟩

/-- The node view the witness expire pulls. -/
def wView : NNode → TableStates := fun _ => [("t", ⟨"t", [⟨"t", "a", 4⟩, ⟨"t", "b", 6⟩]⟩)]

/-- The witness repository state. -/
def wState : RepoState :=
  ⟨[wNode], [⟨"t", [⟨"b", .READY, some wNode, false⟩]⟩], ⟨[], []⟩⟩

/-- The counterexample cluster's active node A. -/
def nodeA : NNode := ⟨"A", true, 0⟩

/-- The counterexample cluster's inactive node B. -/
def nodeB : NNode := ⟨"B", false, 0⟩

/-- A spec assigned to the inactive node B whose id the block manager
still sees under B. -/
def specOnB : IngestSpec := ⟨"s1", .READY, some nodeB, false⟩

/-- The counterexample state: s1 is assigned to inactive B, B's view in
the block manager still lists s1 (so it is in the active-spec cache),
and the empty-spec set is empty. -/
def cexAssignState : RepoState :=
  ⟨[nodeA, nodeB],
   [⟨"t", [specOnB]⟩],
   ⟨[(nodeB, [("t", ⟨"t", [⟨"t", "s1", 10⟩]⟩)])], []⟩⟩

/-- The counterexample client (never asked). -/
def cexClient : ClientReply := fun _ _ => .FAILED

/-- The witness cluster for C5: one active node and one NEW spec. -/
def wAssignState : RepoState :=
  ⟨[nodeA], [⟨"t", [⟨"s2", .NEW, none, false⟩]⟩], ⟨[], []⟩⟩

/-- The witness client replies SUCCEEDED. -/
def wClient : ClientReply := fun _ _ => .SUCCEEDED

/-- The registry as assign leaves it in the witness run. -/
def wRegOut : TableRegistry := ⟨"t", [⟨"s2", .READY, some nodeA, false⟩]⟩

/-- The witness state for C7: one inactive node, one unassigned spec. -/
def w7State : RepoState :=
  ⟨[⟨"C", false, 0⟩], [⟨"t", [⟨"s3", .NEW, none, false⟩]⟩], ⟨[], []⟩⟩

/-
===== Theorems =====
-/

/-- C1: evaluation at the failing input.  The claim says `extract`
returns a non-INVALID macro only when the OR of the observed flags under
the encoding DAILY=1, HOURLY=2, MINUTELY=4, SECONDLY=8, TIMESTAMP=16
exactly equals a valid-combination constant (16, 1, 3, 7 or 15).  On the
template holding the hour, minute and timestamp placeholders that OR is
22, equal to none of them, so the claim requires INVALID — yet the code,
whose TIMESTAMP constant is 0x16 = 22 = 2|4|22, returns TIMESTAMP. -/
theorem extract_flag_collision :
    extract collisionTemplate = PatternMacro.TIMESTAMP ∧
    claimFlagsOr collisionTemplate = 22 ∧
    claimFlagsOr collisionTemplate ≠ 16 ∧
    claimFlagsOr collisionTemplate ≠ 1 ∧
    claimFlagsOr collisionTemplate ≠ 3 ∧
    claimFlagsOr collisionTemplate ≠ 7 ∧
    claimFlagsOr collisionTemplate ≠ 15 := by decide

/-- C2: evaluation at the failing input.  For the template holding the
hour, minute and timestamp placeholders, `extract` returns TIMESTAMP (not
INVALID), and `materialize(extract(T), T, w)` substitutes only the
timestamp placeholder, leaving the recognized hour and minute
placeholders in the output — violating the claimed macro-lattice
invariant. -/
theorem materialize_extract_leaves_placeholder :
    extract collisionTemplate ≠ PatternMacro.INVALID ∧
    hasRecognizedHole (materialize (extract collisionTemplate) collisionTemplate 1700000000) = true := by
  decide

/-- C3: the `seconds` table as the code builds it.  DAILY maps to 86400
and HOURLY to 3600 as claimed, but the initializer lists MINUTELY twice
(60 then 1) and SECONDLY never: `seconds` returns 1 for MINUTELY (the
claim says 60) and 0 for SECONDLY (the claim says 1). -/
theorem seconds_table_values :
    seconds PatternMacro.DAILY = 86400 ∧
    seconds PatternMacro.HOURLY = 3600 ∧
    seconds PatternMacro.MINUTELY = 1 ∧
    seconds PatternMacro.SECONDLY = 0 ∧
    seconds PatternMacro.TIMESTAMP = 0 ∧
    seconds PatternMacro.INVALID = 0 := by decide

/-- Case analysis of the `MACRO_MAP` lookup. -/
theorem macroOf_spec (s : String) :
    (macroOf s = none ∧ s ≠ "date" ∧ s ≠ "hour" ∧ s ≠ "minute" ∧ s ≠ "second" ∧ s ≠ "timestamp")
    ∨ (macroOf s = some .DAILY ∧ s = "date")
    ∨ (macroOf s = some .HOURLY ∧ s = "hour")
    ∨ (macroOf s = some .MINUTELY ∧ s = "minute")
    ∨ (macroOf s = some .SECONDLY ∧ s = "second")
    ∨ (macroOf s = some .TIMESTAMP ∧ s = "timestamp") := by
  unfold macroOf
  split_ifs with h1 h2 h3 h4 h5 <;> simp_all [beq_iff_eq]

/-- The DAILY substitution pass on one token realizes the at-or-below
substitution at level DAILY. -/
theorem replaceTok_chain_DAILY (w : Nat) (tok : Token) :
    replaceTok .DAILY w tok = substAtOrBelow .DAILY w tok := by
  cases tok with
  | lit s => rfl
  | hole n =>
    rcases macroOf_spec (lowerStr n) with ⟨h, _, _, _, _, _⟩ | ⟨h, he⟩ | ⟨h, he⟩ | ⟨h, he⟩ | ⟨h, he⟩ | ⟨h, he⟩ <;>
      simp_all [replaceTok, substAtOrBelow, macroKey, isTimeMacro, PatternMacro.val]

/-- The DAILY-then-HOURLY passes on one token realize the at-or-below
substitution at level HOURLY. -/
theorem replaceTok_chain_HOURLY (w : Nat) (tok : Token) :
    replaceTok .HOURLY w (replaceTok .DAILY w tok) = substAtOrBelow .HOURLY w tok := by
  cases tok with
  | lit s => rfl
  | hole n =>
    rcases macroOf_spec (lowerStr n) with ⟨h, _, _, _, _, _⟩ | ⟨h, he⟩ | ⟨h, he⟩ | ⟨h, he⟩ | ⟨h, he⟩ | ⟨h, he⟩ <;>
      simp_all [replaceTok, substAtOrBelow, macroKey, isTimeMacro, PatternMacro.val]

/-- The passes up to MINUTELY on one token realize the at-or-below
substitution at level MINUTELY. -/
theorem replaceTok_chain_MINUTELY (w : Nat) (tok : Token) :
    replaceTok .MINUTELY w (replaceTok .HOURLY w (replaceTok .DAILY w tok))
      = substAtOrBelow .MINUTELY w tok := by
  cases tok with
  | lit s => rfl
  | hole n =>
    rcases macroOf_spec (lowerStr n) with ⟨h, _, _, _, _, _⟩ | ⟨h, he⟩ | ⟨h, he⟩ | ⟨h, he⟩ | ⟨h, he⟩ | ⟨h, he⟩ <;>
      simp_all [replaceTok, substAtOrBelow, macroKey, isTimeMacro, PatternMacro.val]

/-- All four time passes on one token realize the at-or-below
substitution at level SECONDLY. -/
theorem replaceTok_chain_SECONDLY (w : Nat) (tok : Token) :
    replaceTok .SECONDLY w (replaceTok .MINUTELY w (replaceTok .HOURLY w (replaceTok .DAILY w tok)))
      = substAtOrBelow .SECONDLY w tok := by
  cases tok with
  | lit s => rfl
  | hole n =>
    rcases macroOf_spec (lowerStr n) with ⟨h, _, _, _, _, _⟩ | ⟨h, he⟩ | ⟨h, he⟩ | ⟨h, he⟩ | ⟨h, he⟩ | ⟨h, he⟩ <;>
      simp_all [replaceTok, substAtOrBelow, macroKey, isTimeMacro, PatternMacro.val]

/-- The TIMESTAMP pass on one token is the claim's timestamp-only
substitution. -/
theorem replaceTok_timestamp (w : Nat) (tok : Token) :
    replaceTok .TIMESTAMP w tok = substTimestampOnly w tok := by
  cases tok with
  | lit s => rfl
  | hole n => simp [replaceTok, substTimestampOnly, macroKey, getTimeStringForMacro]

/-- C4: `materialize(INVALID, t, w)` returns the template unchanged;
`materialize(TIMESTAMP, t, w)` substitutes only the timestamp placeholder
with the decimal watermark; for every time macro m it substitutes exactly
the placeholders of time macros at or below m's level, and every token
not so substituted is preserved literally. -/
theorem materialize_contract (t : Template) (w : Nat) :
    materialize .INVALID t w = t ∧
    materialize .TIMESTAMP t w = t.map (substTimestampOnly w) ∧
    ∀ m : PatternMacro, isTimeMacro m = true → materialize m t w = t.map (substAtOrBelow m w) := by
  refine ⟨rfl, ?_, ?_⟩
  · show t.map (replaceTok .TIMESTAMP w) = t.map (substTimestampOnly w)
    exact List.map_congr_left fun a _ => replaceTok_timestamp w a
  · intro m hm
    cases m <;> simp only [isTimeMacro] at hm <;> try exact absurd hm (by decide)
    · show replaceTimeMacro .DAILY t w = _
      show t.map (replaceTok .DAILY w) = _
      exact List.map_congr_left fun a _ => replaceTok_chain_DAILY w a
    · show ((t.map (replaceTok .DAILY w)).map (replaceTok .HOURLY w)) = _
      rw [List.map_map]
      exact List.map_congr_left fun a _ => replaceTok_chain_HOURLY w a
    · show (((t.map (replaceTok .DAILY w)).map (replaceTok .HOURLY w)).map (replaceTok .MINUTELY w)) = _
      rw [List.map_map, List.map_map]
      exact List.map_congr_left fun a _ => replaceTok_chain_MINUTELY w a
    · show ((((t.map (replaceTok .DAILY w)).map (replaceTok .HOURLY w)).map (replaceTok .MINUTELY w)).map (replaceTok .SECONDLY w)) = _
      rw [List.map_map, List.map_map, List.map_map]
      exact List.map_congr_left fun a _ => replaceTok_chain_SECONDLY w a

/-- C4 witness: the time-macro clause of the contract applied at HOURLY
on a concrete template and watermark, the hypothesis discharged by
evaluation. -/
theorem materialize_contract_witness :
    materialize .HOURLY
        [Token.hole "date", Token.lit "/", Token.hole "hour", Token.hole "minute"] 1700000000
      = ([Token.hole "date", Token.lit "/", Token.hole "hour", Token.hole "minute"] :
          Template).map (substAtOrBelow .HOURLY 1700000000) :=
  (materialize_contract
    [Token.hole "date", Token.lit "/", Token.hole "hour", Token.hole "minute"]
    1700000000).2.2 .HOURLY (by decide)

/-- Membership after a set-insert. -/
theorem mem_insertStr (l : List String) (s x : String) (h : x ∈ insertStr l s) :
    x ∈ l ∨ x = s := by
  unfold insertStr at h
  split at h
  · exact Or.inl h
  · rcases List.mem_append.mp h with h1 | h1
    · exact Or.inl h1
    · simp at h1; exact Or.inr h1

/-- A set-insert preserves distinctness. -/
theorem insertStr_nodup (l : List String) (s : String) (h : l.Nodup) :
    (insertStr l s).Nodup := by
  unfold insertStr
  split
  · exact h
  · rename_i hc
    have hs : s ∉ l := by
      intro hm
      exact hc (List.elem_eq_true_of_mem hm)
    simp [List.nodup_append, h, hs]

/-- A set-insert grows the list by at most one. -/
theorem insertStr_length (l : List String) (s : String) :
    (insertStr l s).length ≤ l.length + 1 := by
  unfold insertStr
  split
  · exact Nat.le_succ_of_le (Nat.le_refl _)
  · simp

/-- Folding set-inserts of the table names of one node's state:
distinctness is preserved. -/
theorem foldl_insertStr_nodup (xs : TableStates) (acc : List String) (h : acc.Nodup) :
    (xs.foldl (fun a ts => insertStr a ts.1) acc).Nodup := by
  induction xs generalizing acc with
  | nil => exact h
  | cons e rest ih => exact ih _ (insertStr_nodup _ _ h)

/-- Folding set-inserts grows the accumulator by at most the number of
entries folded in. -/
theorem foldl_insertStr_length (xs : TableStates) (acc : List String) :
    (xs.foldl (fun a ts => insertStr a ts.1) acc).length ≤ acc.length + xs.length := by
  induction xs generalizing acc with
  | nil => exact Nat.le_refl _
  | cons e rest ih =>
    calc ((e :: rest).foldl (fun a ts => insertStr a ts.1) acc).length
        ≤ (insertStr acc e.1).length + rest.length := ih _
      _ ≤ acc.length + 1 + rest.length := Nat.add_le_add_right (insertStr_length _ _) _
      _ = acc.length + (e :: rest).length := by simp [List.length_cons]; omega

/-- Provenance of a name produced by folding one node's table names. -/
theorem foldl_insertStr_mem (xs : TableStates) (acc : List String) (x : String)
    (h : x ∈ xs.foldl (fun a ts => insertStr a ts.1) acc) :
    x ∈ acc ∨ ∃ p ∈ xs, p.1 = x := by
  induction xs generalizing acc with
  | nil => exact Or.inl h
  | cons e rest ih =>
    rcases ih _ h with h1 | ⟨p, hp, hpx⟩
    · rcases mem_insertStr _ _ _ h1 with h2 | h2
      · exact Or.inl h2
      · exact Or.inr ⟨e, List.mem_cons_self _ _, h2.symm⟩
    · exact Or.inr ⟨p, List.mem_cons_of_mem _ hp, hpx⟩

/-- The node loop of `tables` keeps the accumulated set distinct. -/
theorem tablesLoop_nodup (limit : Nat) (data : List (NNode × TableStates))
    (acc : List String) (h : acc.Nodup) : (tablesLoop limit data acc).Nodup := by
  induction data generalizing acc with
  | nil => exact h
  | cons e rest ih =>
    unfold tablesLoop
    split
    · exact foldl_insertStr_nodup _ _ h
    · exact ih _ (foldl_insertStr_nodup _ _ h)

/-- The node loop of `tables` only returns names drawn from the visited
node states. -/
theorem tablesLoop_mem (limit : Nat) (data : List (NNode × TableStates))
    (acc : List String) (x : String) (h : x ∈ tablesLoop limit data acc) :
    x ∈ acc ∨ ∃ e ∈ data, ∃ p ∈ e.2, p.1 = x := by
  induction data generalizing acc with
  | nil => exact Or.inl h
  | cons e rest ih =>
    unfold tablesLoop at h
    split at h
    · rcases foldl_insertStr_mem _ _ _ h with h1 | ⟨p, hp, hpx⟩
      · exact Or.inl h1
      · exact Or.inr ⟨e, List.mem_cons_self _ _, p, hp, hpx⟩
    · rcases ih _ h with h1 | ⟨e2, he2, p, hp, hpx⟩
      · rcases foldl_insertStr_mem _ _ _ h1 with h2 | ⟨p, hp, hpx⟩
        · exact Or.inl h2
        · exact Or.inr ⟨e, List.mem_cons_self _ _, p, hp, hpx⟩
      · exact Or.inr ⟨e2, List.mem_cons_of_mem _ he2, p, hp, hpx⟩

/-- Size bound for the node loop of `tables`: entering with an
accumulator under the limit, the result stays within limit plus the
largest per-node table count. -/
theorem tablesLoop_length (limit : Nat) (data : List (NNode × TableStates))
    (acc : List String) (h : acc.length ≤ limit) :
    (tablesLoop limit data acc).length ≤ limit + maxNodeTables data := by
  induction data generalizing acc with
  | nil => exact Nat.le_add_right_of_le h
  | cons e rest ih =>
    unfold tablesLoop
    have hgrow := foldl_insertStr_length e.2 acc
    split
    · calc (e.2.foldl (fun a ts => insertStr a ts.1) acc).length
          ≤ acc.length + e.2.length := hgrow
        _ ≤ limit + e.2.length := Nat.add_le_add_right h _
        _ ≤ limit + maxNodeTables (e :: rest) := by
            exact Nat.add_le_add_left (Nat.le_max_left _ _) _
    · rename_i hlt
      have h2 : (e.2.foldl (fun a ts => insertStr a ts.1) acc).length ≤ limit :=
        Nat.le_of_lt (Nat.lt_of_not_le hlt)
      calc (tablesLoop limit rest (e.2.foldl (fun a ts => insertStr a ts.1) acc)).length
          ≤ limit + maxNodeTables rest := ih _ h2
        _ ≤ limit + maxNodeTables (e :: rest) := by
            exact Nat.add_le_add_left (Nat.le_max_right _ _) _

/-- C9 (amended): `tables(limit)` returns a set of distinct table names
drawn from the table states of the known nodes; iteration stops after the
first node at which the set reaches the limit, so the size is bounded by
limit plus the largest per-node table count (not by limit itself). -/
theorem tables_contract (bm : BMState) (limit : Nat) :
    (bm.tables limit).Nodup ∧
    (∀ x ∈ bm.tables limit, ∃ e ∈ bm.data, ∃ p ∈ e.2, p.1 = x) ∧
    (bm.tables limit).length ≤ limit + maxNodeTables bm.data := by
  refine ⟨tablesLoop_nodup _ _ _ List.nodup_nil, ?_, tablesLoop_length _ _ _ (Nat.zero_le _)⟩
  intro x hx
  rcases tablesLoop_mem _ _ _ _ hx with h | h
  · cases h
  · exact h

/-- C9 counterexample: with one node holding two tables and limit 1, the
returned set has 2 names — the break fires only after a whole node's
tables are inserted, so the claimed bound `size ≤ limit` fails. -/
theorem tables_limit_exceeded : ¬ ((cexTablesBM.tables 1).length ≤ 1) := by decide

/-- C9 witness: the amended claim evaluated on the concrete two-table
state. -/
theorem tables_contract_witness :
    (cexTablesBM.tables 1).Nodup ∧
    (cexTablesBM.tables 1).length ≤ 1 + maxNodeTables cexTablesBM.data :=
  ⟨(tables_contract cexTablesBM 1).1, (tables_contract cexTablesBM 1).2.2⟩

/-- A node lookup in the per-node map after appending a fresh entry for
that node's address finds the fresh entry. -/
theorem lookupNode_append_self (data : List (NNode × TableStates)) (n : NNode)
    (tss : TableStates) (h : lookupNode data n = none) :
    lookupNode (data ++ [(n, tss)]) n = some tss := by
  unfold lookupNode at *
  rw [List.find?_append]
  cases hf : data.find? (fun p => p.1.addr == n.addr) with
  | none => simp
  | some p => rw [hf] at h; simp at h

/-- Appending an entry for one address leaves lookups of every other
address unchanged. -/
theorem lookupNode_append_other (data : List (NNode × TableStates)) (n : NNode)
    (tss : TableStates) (m : NNode) (h : m.addr ≠ n.addr) :
    lookupNode (data ++ [(n, tss)]) m = lookupNode data m := by
  unfold lookupNode
  rw [List.find?_append]
  cases hf : data.find? (fun p => p.1.addr == m.addr) with
  | some p => rfl
  | none =>
    have : (n.addr == m.addr) = false := by
      cases he : n.addr == m.addr
      · rfl
      · exact absurd (beq_iff_eq.mp he).symm h
    simp [List.find?, this]

/-- C10: `states(N)` on a node absent from the per-node map returns the
empty table-states entry and inserts it, so N subsequently appears in the
map's node set while every other address's lookup is untouched and the
empty-spec set is unchanged; for a node already present, the whole block
manager state is unchanged. -/
theorem states_contract (bm : BMState) (n : NNode) :
    (∀ tss, lookupNode bm.data n = some tss → bm.states n = (tss, bm)) ∧
    (lookupNode bm.data n = none →
      (bm.states n).1 = [] ∧
      lookupNode (bm.states n).2.data n = some [] ∧
      (bm.states n).2.data.map Prod.fst = bm.data.map Prod.fst ++ [n] ∧
      (∀ m : NNode, m.addr ≠ n.addr →
        lookupNode (bm.states n).2.data m = lookupNode bm.data m) ∧
      (bm.states n).2.emptySpecs = bm.emptySpecs) := by
  constructor
  · intro tss h
    unfold BMState.states
    rw [h]
  · intro h
    unfold BMState.states
    rw [h]
    refine ⟨rfl, lookupNode_append_self _ _ _ h, by simp, ?_, rfl⟩
    intro m hm
    exact lookupNode_append_other _ _ _ _ hm

/-- C10 witness: the insertion clause evaluated on the empty block
manager. -/
theorem states_contract_witness :
    lookupNode (⟨[], []⟩ : BMState).data ⟨"A", true, 0⟩ = none ∧
    ((⟨[], []⟩ : BMState).states ⟨"A", true, 0⟩).1 = [] ∧
    lookupNode ((⟨[], []⟩ : BMState).states ⟨"A", true, 0⟩).2.data ⟨"A", true, 0⟩ = some [] := by
  have h := (states_contract (⟨[], []⟩ : BMState) ⟨"A", true, 0⟩).2 (by decide)
  exact ⟨by decide, h.1, h.2.1⟩

/-- Closed form of `lost`'s inner fold over one registry's specs. -/
theorem lostRun_inner (addr : String) (specs : List IngestSpec) (c : Nat)
    (l : List IngestSpec) :
    specs.foldl
      (fun a s =>
        if s.assigned && lostHit addr s then (a.1 + 1, a.2 ++ [resetSpec s])
        else (a.1, a.2 ++ [s]))
      (c, l)
    = (c + specs.countP (fun s => s.assigned && lostHit addr s),
       l ++ specs.map (lostMark addr)) := by
  induction specs generalizing c l with
  | nil => simp
  | cons s rest ih =>
    by_cases h : (s.assigned && lostHit addr s) = true
    · rw [List.foldl_cons, if_pos h, ih, Prod.mk.injEq]
      constructor
      · rw [List.countP_cons]
        simp [h]
        omega
      · simp [lostMark, h]
    · rw [List.foldl_cons, if_neg h, ih, Prod.mk.injEq]
      constructor
      · rw [List.countP_cons]
        simp [h]
      · simp [lostMark, h]

/-- Closed form of a fold that tallies a count and appends one transformed
element per input. -/
theorem foldl_tally {α β : Type} (g : α → Nat) (f : α → β) (xs : List α) (c : Nat)
    (l : List β) :
    xs.foldl (fun acc x => (acc.1 + g x, acc.2 ++ [f x])) (c, l)
      = (c + (xs.map g).sum, l ++ xs.map f) := by
  induction xs generalizing c l with
  | nil => simp
  | cons x rest ih =>
    rw [List.foldl_cons, ih, Prod.mk.injEq]
    constructor
    · simp
      omega
    · simp

/-- C8: `lost(addr)` returns the number of specs that are assigned with
affinity address equal to addr, and maps every registry pointwise —
exactly the matching specs are reset (affinity cleared, state NEW) and
every other spec is unchanged. -/
theorem lost_contract (addr : String) (tables : List TableRegistry) :
    (lostRun addr tables).1
      = (allSpecs tables).countP (fun s => s.assigned && lostHit addr s) ∧
    (lostRun addr tables).2
      = tables.map (fun reg => { reg with specs := reg.specs.map (lostMark addr) }) := by
  unfold lostRun
  rw [List.foldl_ext _
    (fun acc reg =>
      (acc.1 + reg.specs.countP (fun s => s.assigned && lostHit addr s),
       acc.2 ++ [{ reg with specs := reg.specs.map (lostMark addr) }]))
    (0, ([] : List TableRegistry))
    (fun acc reg _ => by rw [lostRun_inner]; simp)]
  rw [foldl_tally]
  constructor
  · simp [allSpecs, List.countP_flatten, List.map_map]
    rfl
  · simp

/-- Membership after a pair-set insert. -/
theorem mem_insertPair (l : List (String × String)) (p q : String × String)
    (h : q ∈ insertPair l p) : q ∈ l ∨ q = p := by
  unfold insertPair at h
  split at h
  · exact Or.inl h
  · rcases List.mem_append.mp h with h1 | h1
    · exact Or.inl h1
    · simp at h1
      exact Or.inr h1

/-- Provenance through a fold of pair-set inserts keyed by blocks. -/
theorem mem_foldl_insertPair_blocks (blocks : List BatchBlock)
    (acc : List (String × String)) (p : String × String)
    (h : p ∈ blocks.foldl (fun a b => insertPair a (b.table, b.specId)) acc) :
    p ∈ acc ∨ ∃ b ∈ blocks, p = (b.table, b.specId) := by
  induction blocks generalizing acc with
  | nil => exact Or.inl h
  | cons b rest ih =>
    rcases ih _ h with h1 | ⟨b2, hb2, hp⟩
    · rcases mem_insertPair _ _ _ h1 with h2 | h2
      · exact Or.inl h2
      · exact Or.inr ⟨b, List.mem_cons_self _ _, h2⟩
    · exact Or.inr ⟨b2, List.mem_cons_of_mem _ hb2, hp⟩

/-- Every pair `TableState.expired` reports satisfies the predicate. -/
theorem expired_pairs_pred (pred : String → String → Bool) (ts : TableState)
    (p : String × String) (h : p ∈ (ts.expired pred).1) : pred p.1 p.2 = true := by
  unfold TableState.expired at h
  rcases mem_foldl_insertPair_blocks _ _ _ h with h1 | ⟨b, hb, hp⟩
  · cases h1
  · have := (List.mem_filter.mp hb).2
    rw [hp]
    exact this

/-- Provenance through a fold of pair-set inserts of an already-reported
pair list. -/
theorem mem_foldl_insertPair (ps : List (String × String))
    (acc : List (String × String)) (p : String × String)
    (h : p ∈ ps.foldl insertPair acc) : p ∈ acc ∨ p ∈ ps := by
  induction ps generalizing acc with
  | nil => exact Or.inl h
  | cons q rest ih =>
    rcases ih _ h with h1 | h1
    · rcases mem_insertPair _ _ _ h1 with h2 | h2
      · exact Or.inl h2
      · exact Or.inr (h2 ▸ List.mem_cons_self _ _)
    · exact Or.inr (List.mem_cons_of_mem _ h1)

/-- Provenance through the per-node expire fold, for any starting
accumulator. -/
theorem nodeExpire_aux (tables : List TableRegistry) (p : String × String) :
    ∀ (tss : TableStates) (acc : List (String × String) × TableStates × Nat),
      p ∈ (tss.foldl
        (fun acc entry =>
          ((entry.2.expired (expirePred tables)).1.foldl insertPair acc.1,
           acc.2.1 ++ [(entry.1, (entry.2.expired (expirePred tables)).2)],
           acc.2.2 + (entry.2.expired (expirePred tables)).2.rawBytes))
        acc).1 →
      p ∈ acc.1 ∨ expirePred tables p.1 p.2 = true := by
  intro tss
  induction tss with
  | nil => exact fun acc hm => Or.inl hm
  | cons entry rest ih =>
    intro acc hm
    rw [List.foldl_cons] at hm
    rcases ih _ hm with h1 | h1
    · rcases mem_foldl_insertPair _ _ _ h1 with h2 | h2
      · exact Or.inl h2
      · exact Or.inr (expired_pairs_pred _ _ _ h2)
    · exact Or.inr h1

/-- Every pair the per-node expire accumulation reports satisfies the
expire predicate. -/
theorem nodeExpire_pairs_pred (tables : List TableRegistry) (tss : TableStates)
    (p : String × String) (h : p ∈ (nodeExpire tables tss).1) :
    expirePred tables p.1 p.2 = true := by
  unfold nodeExpire at h
  rcases nodeExpire_aux tables p tss ([], [], 0) h with h1 | h1
  · cases h1
  · exact h1

/-- `expireStep` never touches the registries. -/
theorem expireStep_tables (nodeView : NNode → TableStates) (st : RepoState) (n : NNode) :
    (expireStep nodeView st n).1.tables = st.tables := by
  unfold expireStep
  split <;> rfl

/-- Every pair one node iteration reports satisfies the expire predicate
over that state's registries. -/
theorem expireStep_pairs_pred (nodeView : NNode → TableStates) (st : RepoState)
    (n : NNode) (p : String × String) (h : p ∈ (expireStep nodeView st n).2) :
    expirePred st.tables p.1 p.2 = true := by
  unfold expireStep at h
  split at h
  · exact nodeExpire_pairs_pred _ _ _ h
  · cases h

/-- Provenance through the node loop of `expire`, for any starting
accumulator whose state still carries the original registries. -/
theorem expireRun_aux (nodeView : NNode → TableStates) (tabs : List TableRegistry)
    (p : String × String) :
    ∀ (ns : List NNode) (acc : Nat × RepoState × List (String × String)),
      acc.2.1.tables = tabs →
      p ∈ (ns.foldl
        (fun acc n =>
          (acc.1 + (expireStep nodeView acc.2.1 n).2.length,
           (expireStep nodeView acc.2.1 n).1,
           acc.2.2 ++ (expireStep nodeView acc.2.1 n).2))
        acc).2.2 →
      p ∈ acc.2.2 ∨ expirePred tabs p.1 p.2 = true := by
  intro ns
  induction ns with
  | nil => exact fun acc _ hm => Or.inl hm
  | cons n rest ih =>
    intro acc hacc hm
    rw [List.foldl_cons] at hm
    rcases ih _ (by rw [expireStep_tables]; exact hacc) hm with h1 | h1
    · rcases List.mem_append.mp h1 with h2 | h2
      · exact Or.inl h2
      · right
        have := expireStep_pairs_pred nodeView acc.2.1 n p h2
        rw [hacc] at this
        exact this
    · exact Or.inr h1

/-- C6: every (table, specId) pair `expire` counts as expired (and packs
into an EXPIRATION task) satisfies `registry(table).online(specId) =
false` against the registries as they stand during the call. -/
theorem expire_sound (nodeView : NNode → TableStates) (st : RepoState) :
    ∀ p ∈ (expireRun nodeView st).2.2, onlineAt st.tables p.1 p.2 = false := by
  intro p hp
  have hpred : expirePred st.tables p.1 p.2 = true := by
    unfold expireRun at hp
    rcases expireRun_aux nodeView st.tables p _ _ rfl hp with h1 | h1
    · cases h1
    · exact h1
  unfold expirePred at hpred
  unfold onlineAt
  cases hq : queryRegistry st.tables p.1 with
  | none => rfl
  | some r =>
    rw [hq] at hpred
    simp at hpred
    simp [hpred]

/-- C6 witness: a node holding blocks for spec ids a and b while the
registry lists only b online; the pair (t, a) is reported expired and is
indeed not online. -/
theorem expire_sound_witness :
    ("t", "a") ∈ (expireRun wView wState).2.2 ∧ onlineAt wState.tables "t" "a" = false :=
  ⟨by decide, expire_sound wView wState ("t", "a") (by decide)⟩

/-- Membership through one sorted insert. -/
theorem mem_insertBySize (n : NNode) (l : List NNode) (x : NNode) :
    x ∈ insertBySize n l ↔ x = n ∨ x ∈ l := by
  induction l with
  | nil => simp [insertBySize]
  | cons m rest ih =>
    unfold insertBySize
    split
    · simp
    · simp [ih]
      tauto

/-- The sorted node snapshot has the same members as the snapshot. -/
theorem mem_sortNodes (ns : List NNode) (x : NNode) : x ∈ sortNodes ns ↔ x ∈ ns := by
  induction ns with
  | nil => simp [sortNodes]
  | cons n rest ih =>
    unfold sortNodes at *
    rw [List.foldr_cons, mem_insertBySize, ih]
    simp

/-- One sorted insert grows the list by one. -/
theorem length_insertBySize (n : NNode) (l : List NNode) :
    (insertBySize n l).length = l.length + 1 := by
  induction l with
  | nil => rfl
  | cons m rest ih =>
    unfold insertBySize
    split
    · rfl
    · simp [ih]

/-- Sorting preserves the number of nodes. -/
theorem length_sortNodes (ns : List NNode) : (sortNodes ns).length = ns.length := by
  induction ns with
  | nil => rfl
  | cons n rest ih =>
    unfold sortNodes at *
    rw [List.foldr_cons, length_insertBySize, ih]
    rfl

/-- Every residue below the ring size is reached by some probe offset. -/
theorem shift_mod_surj (len start j : Nat) (hlen : 0 < len) (hj : j < len) :
    ∃ k, k < len ∧ (start + k) % len = j := by
  have hs : start % len < len := Nat.mod_lt _ hlen
  by_cases hc : start % len ≤ j
  · refine ⟨j - start % len, by omega, ?_⟩
    rw [Nat.add_mod, Nat.mod_eq_of_lt (show j - start % len < len by omega)]
    rw [show start % len + (j - start % len) = j from by omega]
    exact Nat.mod_eq_of_lt hj
  · refine ⟨len + j - start % len, by omega, ?_⟩
    rw [Nat.add_mod, Nat.mod_eq_of_lt (show len + j - start % len < len by omega)]
    rw [show start % len + (len + j - start % len) = len + j from by omega]
    rw [Nat.add_mod_left]
    exact Nat.mod_eq_of_lt hj

/-- With no active node in the ring, the placement walk fails. -/
theorem ringFind_none (nodes : List NNode) (start : Nat)
    (h : ∀ n ∈ nodes, n.active = false) : ringFind nodes start = none := by
  unfold ringFind
  rw [List.findSome?_eq_none_iff]
  intro k hk
  rcases Nat.lt_or_ge ((start + k) % nodes.length) nodes.length with hlt | hge
  · have hmem : nodes.getD ((start + k) % nodes.length) invalidNode ∈ nodes := by
      rw [List.getD_eq_getElem?_getD, List.getElem?_eq_getElem hlt]
      exact List.getElem_mem _
    rw [h _ hmem]
    rfl
  · have hD : nodes.getD ((start + k) % nodes.length) invalidNode = invalidNode := by
      rw [List.getD_eq_getElem?_getD, List.getElem?_eq_none (by omega)]
      rfl
    rw [hD]
    rfl

/-- With an active node in the ring, the placement walk returns an index
holding an active node. -/
theorem ringFind_some (nodes : List NNode) (start : Nat)
    (h : ∃ n ∈ nodes, n.active = true) :
    ∃ i, ringFind nodes start = some i ∧ (nodes.getD i invalidNode).active = true := by
  cases hr : ringFind nodes start with
  | some i =>
    refine ⟨i, rfl, ?_⟩
    obtain ⟨k, _, hk⟩ := List.exists_of_findSome?_eq_some hr
    by_cases hif : (nodes.getD ((start + k) % nodes.length) invalidNode).active = true
    · rw [if_pos hif] at hk
      cases hk
      exact hif
    · rw [if_neg hif] at hk
      cases hk
  | none =>
    exfalso
    obtain ⟨n, hn, hact⟩ := h
    have hlen : 0 < nodes.length := List.length_pos_of_mem hn
    obtain ⟨j, hjlt, hjget⟩ := List.getElem_of_mem hn
    obtain ⟨k, hklt, hkmod⟩ := shift_mod_surj nodes.length start j hlen hjlt
    unfold ringFind at hr
    rw [List.findSome?_eq_none_iff] at hr
    have hp := hr k (List.mem_range.mpr hklt)
    rw [hkmod] at hp
    rw [List.getD_eq_getElem?_getD, List.getElem?_eq_getElem hjlt] at hp
    simp only [Option.getD_some, hjget, hact, if_true] at hp
    exact Option.noConfusion hp

/-- The sync send neither aborts nor changes the spec's id or affinity. -/
theorem syncSpec_frame (client : ClientReply) (idx tasks : Nat) (s : IngestSpec) :
    (syncSpec client idx tasks s).aborted = false ∧
    (syncSpec client idx tasks s).spec.id = s.id ∧
    (syncSpec client idx tasks s).spec.affinity = s.affinity := by
  unfold syncSpec
  split
  · refine ⟨rfl, ?_, ?_⟩ <;> split <;> rfl
  · exact ⟨rfl, rfl, rfl⟩

/-- With an active node in the ring, one inner-loop iteration neither
aborts nor leaves the spec uncovered. -/
theorem stepSpec_covered (nodes : List NNode) (active empty : List String)
    (client : ClientReply) (idx tasks : Nat) (s0 : IngestSpec)
    (hact : ∃ n ∈ nodes, n.active = true) :
    (stepSpec nodes active empty client idx tasks s0).aborted = false ∧
    coveredB active empty (stepSpec nodes active empty client idx tasks s0).spec = true := by
  by_cases ha : (resetCheck active empty s0).assigned = true
  · have hstep : stepSpec nodes active empty client idx tasks s0
        = syncSpec client idx tasks (resetCheck active empty s0) := by
      unfold stepSpec
      rw [if_pos ha]
    by_cases hcond : (s0.assigned && !active.contains s0.id && !empty.contains s0.id) = true
    · exfalso
      rw [resetCheck, if_pos hcond] at ha
      simp [resetSpec, IngestSpec.assigned] at ha
    · have hrc : resetCheck active empty s0 = s0 := by rw [resetCheck, if_neg hcond]
      rw [hrc] at hstep ha
      rw [hstep]
      obtain ⟨hab, hid, haff⟩ := syncSpec_frame client idx tasks s0
      refine ⟨hab, ?_⟩
      have hor : active.contains s0.id = true ∨ empty.contains s0.id = true := by
        by_cases h1 : active.contains s0.id = true
        · exact Or.inl h1
        · by_cases h2 : empty.contains s0.id = true
          · exact Or.inr h2
          · rw [Bool.not_eq_true] at h1 h2
            exact absurd (by rw [ha, h1, h2]; rfl) hcond
      unfold coveredB
      rw [hid]
      rcases hor with h1 | h1
      · rw [h1]
        simp
      · rw [h1]
        simp
  · obtain ⟨i, hi, hiact⟩ := ringFind_some nodes idx hact
    have hstep : stepSpec nodes active empty client idx tasks s0
        = syncSpec client ((i + 1) % nodes.length) tasks
            (setAffinity (resetCheck active empty s0) (nodes.getD i invalidNode)) := by
      unfold stepSpec
      rw [if_neg ha, hi]
    rw [hstep]
    obtain ⟨hab, hid, haff⟩ := syncSpec_frame client ((i + 1) % nodes.length) tasks
      (setAffinity (resetCheck active empty s0) (nodes.getD i invalidNode))
    refine ⟨hab, ?_⟩
    have haff2 : (syncSpec client ((i + 1) % nodes.length) tasks
        (setAffinity (resetCheck active empty s0) (nodes.getD i invalidNode))).spec.affinity
        = some (nodes.getD i invalidNode) := by
      rw [haff]
      rfl
    have hcov : activeAffinity (syncSpec client ((i + 1) % nodes.length) tasks
        (setAffinity (resetCheck active empty s0) (nodes.getD i invalidNode))).spec = true := by
      unfold activeAffinity
      rw [haff2]
      exact hiact
    unfold coveredB
    rw [hcov]
    rfl

/-- With an active node in the ring, the inner loop neither aborts nor
leaves any processed spec uncovered. -/
theorem assignSpecList_covered (nodes : List NNode) (active empty : List String)
    (client : ClientReply) (hact : ∃ n ∈ nodes, n.active = true) :
    ∀ (specs : List IngestSpec) (idx tasks : Nat),
      (assignSpecList nodes active empty client idx tasks specs).aborted = false ∧
      ∀ s ∈ (assignSpecList nodes active empty client idx tasks specs).specs,
        coveredB active empty s = true := by
  intro specs
  induction specs with
  | nil =>
    intro idx tasks
    exact ⟨rfl, by intro s hs; cases hs⟩
  | cons s0 rest ih =>
    intro idx tasks
    obtain ⟨hab, hcov⟩ := stepSpec_covered nodes active empty client idx tasks s0 hact
    unfold assignSpecList
    rw [if_neg (by rw [hab]; exact Bool.false_ne_true)]
    obtain ⟨hab2, hcov2⟩ := ih (stepSpec nodes active empty client idx tasks s0).idx
      (stepSpec nodes active empty client idx tasks s0).tasks
    refine ⟨hab2, ?_⟩
    intro s hs
    rcases List.mem_cons.mp hs with h1 | h1
    · rw [h1]
      exact hcov
    · exact hcov2 s h1

/-- With an active node in the ring, the outer loop neither aborts nor
leaves any spec of any registry uncovered. -/
theorem assignRegList_covered (nodes : List NNode) (active empty : List String)
    (client : ClientReply) (hact : ∃ n ∈ nodes, n.active = true) :
    ∀ (regs : List TableRegistry) (idx tasks : Nat),
      (assignRegList nodes active empty client idx tasks regs).aborted = false ∧
      ∀ reg ∈ (assignRegList nodes active empty client idx tasks regs).regs,
        ∀ s ∈ reg.specs, coveredB active empty s = true := by
  intro regs
  induction regs with
  | nil =>
    intro idx tasks
    exact ⟨rfl, by intro reg hr; cases hr⟩
  | cons reg rest ih =>
    intro idx tasks
    obtain ⟨hab, hcov⟩ := assignSpecList_covered nodes active empty client hact reg.specs idx tasks
    unfold assignRegList
    rw [if_neg (by rw [hab]; exact Bool.false_ne_true)]
    obtain ⟨hab2, hcov2⟩ := ih (assignSpecList nodes active empty client idx tasks reg.specs).idx
      (assignSpecList nodes active empty client idx tasks reg.specs).tasks
    refine ⟨hab2, ?_⟩
    intro r hr
    rcases List.mem_cons.mp hr with h1 | h1
    · intro s hs
      rw [h1] at hs
      exact hcov s hs
    · exact hcov2 r h1

/-- C5 (amended): after one call to `assign` whose node snapshot holds
at least one active node, every spec in every table registry either has
an affinity node with the active flag set, or has its id in the union of
the block manager's active-spec cache and empty-spec set as read at the
start of the call. -/
theorem assign_totality (client : ClientReply) (st : RepoState)
    (hact : ∃ n ∈ st.clusterNodes, n.active = true) :
    ∀ reg ∈ (assign client st).2.tables, ∀ s ∈ reg.specs,
      coveredB (activeSpecsOf st.clusterNodes st.bm.data) st.bm.emptySpecs s = true := by
  have hact2 : ∃ n ∈ sortNodes st.clusterNodes, n.active = true := by
    obtain ⟨n, hn, ha⟩ := hact
    exact ⟨n, (mem_sortNodes _ _).mpr hn, ha⟩
  have hpos : 0 < (sortNodes st.clusterNodes).length := by
    obtain ⟨n0, hn0, _⟩ := hact2
    exact List.length_pos_of_mem hn0
  unfold assign
  rw [if_neg (by simp only [beq_iff_eq]; omega)]
  intro reg hreg s hs
  exact (assignRegList_covered (sortNodes st.clusterNodes) _ _ client hact2 st.tables 0 0).2
    reg hreg s hs

/-- C5 counterexample: a spec assigned to an inactive node whose id the
block manager still lists under a cluster node is skipped by the orphan
reset (it sits in the active-spec cache), so after `assign` it has an
inactive affinity and is not in `emptySpecs_` — the claim as stated
fails. -/
theorem assign_totality_cex :
    (∃ n ∈ cexAssignState.clusterNodes, n.active = true) ∧
    ¬ (∀ reg ∈ (assign cexClient cexAssignState).2.tables, ∀ s ∈ reg.specs,
        activeAffinity s = true ∨
        (assign cexClient cexAssignState).2.bm.emptySpecs.contains s.id = true) := by
  decide

/-- C5 witness: the amended claim applied to a concrete one-node run,
every hypothesis discharged by evaluation. -/
theorem assign_totality_witness :
    coveredB (activeSpecsOf wAssignState.clusterNodes wAssignState.bm.data)
      wAssignState.bm.emptySpecs ⟨"s2", .READY, some nodeA, false⟩ = true :=
  assign_totality wClient wAssignState (by decide) wRegOut (by decide)
    ⟨"s2", .READY, some nodeA, false⟩ (by decide)

/-- With every node inactive, an iteration that reaches the placement
walk aborts, leaving cursor and task count untouched. -/
theorem stepSpec_blocked (nodes : List NNode) (active empty : List String)
    (client : ClientReply) (idx tasks : Nat) (s0 : IngestSpec)
    (hall : ∀ n ∈ nodes, n.active = false)
    (hb : needsPlacement active empty s0 = true) :
    stepSpec nodes active empty client idx tasks s0
      = ⟨resetCheck active empty s0, idx, tasks, true⟩ := by
  have hna : (resetCheck active empty s0).assigned = false := by
    unfold needsPlacement at hb
    unfold resetCheck
    cases h1 : s0.assigned <;> cases hc1 : active.contains s0.id <;>
      cases hc2 : empty.contains s0.id <;>
      simp_all [resetSpec, IngestSpec.assigned]
  unfold stepSpec
  rw [if_neg (by rw [hna]; exact Bool.false_ne_true), ringFind_none nodes idx hall]

/-- An iteration on a spec the walk need not place is exactly the sync
send on the unchanged spec. -/
theorem stepSpec_unblocked (nodes : List NNode) (active empty : List String)
    (client : ClientReply) (idx tasks : Nat) (s0 : IngestSpec)
    (hb : needsPlacement active empty s0 = false) :
    stepSpec nodes active empty client idx tasks s0 = syncSpec client idx tasks s0 := by
  have hrc : resetCheck active empty s0 = s0 := by
    unfold needsPlacement at hb
    unfold resetCheck
    cases h1 : s0.assigned <;> cases hc1 : active.contains s0.id <;>
      cases hc2 : empty.contains s0.id <;>
      simp_all [IngestSpec.assigned]
  have has : s0.assigned = true := by
    unfold needsPlacement at hb
    cases h1 : s0.assigned
    · rw [h1] at hb
      simp at hb
    · rfl
  unfold stepSpec
  rw [hrc, if_pos has]

/-- The cursor, task count and abort flag the sync send returns. -/
theorem syncSpec_out (client : ClientReply) (idx tasks : Nat) (s : IngestSpec) :
    (syncSpec client idx tasks s).idx = idx ∧
    (syncSpec client idx tasks s).tasks = tasks + (if s.needSync then 1 else 0) ∧
    (syncSpec client idx tasks s).aborted = false := by
  unfold syncSpec
  split <;> rename_i h <;> simp [h]

/-- The one-step equation of the blocked-task count. -/
theorem tasksUntilBlocked_cons (active empty : List String) (s : IngestSpec)
    (rest : List IngestSpec) :
    tasksUntilBlocked active empty (s :: rest)
      = if needsPlacement active empty s = true then 0
        else (if s.needSync = true then 1 else 0) + tasksUntilBlocked active empty rest := rfl

/-- Splitting the blocked-task count at a list boundary. -/
theorem tasksUntilBlocked_append (active empty : List String) (l1 l2 : List IngestSpec) :
    tasksUntilBlocked active empty (l1 ++ l2)
      = if l1.any (needsPlacement active empty) = true then tasksUntilBlocked active empty l1
        else l1.countP (fun s => s.needSync) + tasksUntilBlocked active empty l2 := by
  induction l1 with
  | nil => simp [tasksUntilBlocked]
  | cons s rest ih =>
    rw [List.cons_append]
    by_cases hb : needsPlacement active empty s = true
    · have hany : (s :: rest).any (needsPlacement active empty) = true := by
        rw [List.any_cons, hb]
        rfl
      rw [tasksUntilBlocked_cons, if_pos hb, hany, if_pos rfl, tasksUntilBlocked_cons, if_pos hb]
    · rw [Bool.not_eq_true] at hb
      have hbne : ¬ (needsPlacement active empty s = true) := by
        rw [hb]
        exact Bool.false_ne_true
      have hany : (s :: rest).any (needsPlacement active empty)
          = rest.any (needsPlacement active empty) := by
        rw [List.any_cons, hb, Bool.false_or]
      rw [tasksUntilBlocked_cons, if_neg hbne, ih, hany, List.countP_cons]
      by_cases hr : rest.any (needsPlacement active empty) = true
      · rw [if_pos hr, if_pos hr, tasksUntilBlocked_cons, if_neg hbne]
      · rw [Bool.not_eq_true] at hr
        have hrne : ¬ (rest.any (needsPlacement active empty) = true) := by
          rw [hr]
          exact Bool.false_ne_true
        rw [if_neg hrne, if_neg hrne]
        omega

/-- The specs of consecutive registries. -/
theorem allSpecs_cons (reg : TableRegistry) (rest : List TableRegistry) :
    allSpecs (reg :: rest) = reg.specs ++ allSpecs rest := by
  simp [allSpecs]

/-- With every node inactive, the inner loop aborts at the first spec the
walk must place, having counted one task per earlier sync; with no such
spec it completes, keeping the cursor and counting every sync. -/
theorem assignSpecList_allInactive (nodes : List NNode) (active empty : List String)
    (client : ClientReply) (hall : ∀ n ∈ nodes, n.active = false) :
    ∀ (specs : List IngestSpec) (idx tasks : Nat),
      (specs.any (needsPlacement active empty) = true →
        (assignSpecList nodes active empty client idx tasks specs).aborted = true ∧
        (assignSpecList nodes active empty client idx tasks specs).tasks
          = tasks + tasksUntilBlocked active empty specs) ∧
      (specs.any (needsPlacement active empty) = false →
        (assignSpecList nodes active empty client idx tasks specs).aborted = false ∧
        (assignSpecList nodes active empty client idx tasks specs).idx = idx ∧
        (assignSpecList nodes active empty client idx tasks specs).tasks
          = tasks + specs.countP (fun s => s.needSync)) := by
  intro specs
  induction specs with
  | nil =>
    intro idx tasks
    constructor
    · intro hany
      simp at hany
    · intro _
      refine ⟨rfl, rfl, ?_⟩
      show tasks = tasks + List.countP _ []
      simp
  | cons s0 rest ih =>
    intro idx tasks
    by_cases hb : needsPlacement active empty s0 = true
    · have hstep := stepSpec_blocked nodes active empty client idx tasks s0 hall hb
      constructor
      · intro _
        unfold assignSpecList
        rw [hstep]
        refine ⟨rfl, ?_⟩
        show tasks = tasks + tasksUntilBlocked active empty (s0 :: rest)
        rw [tasksUntilBlocked_cons, if_pos hb]
        omega
      · intro hany
        rw [List.any_cons, hb] at hany
        simp at hany
    · rw [Bool.not_eq_true] at hb
      have hbne : ¬ (needsPlacement active empty s0 = true) := by
        rw [hb]
        exact Bool.false_ne_true
      have hstep := stepSpec_unblocked nodes active empty client idx tasks s0 hb
      obtain ⟨hidx, htasks, habort⟩ := syncSpec_out client idx tasks s0
      rw [← hstep] at hidx htasks habort
      have habne : ¬ ((stepSpec nodes active empty client idx tasks s0).aborted = true) := by
        rw [habort]
        exact Bool.false_ne_true
      have hgo : assignSpecList nodes active empty client idx tasks (s0 :: rest)
          = ⟨(stepSpec nodes active empty client idx tasks s0).spec ::
              (assignSpecList nodes active empty client
                (stepSpec nodes active empty client idx tasks s0).idx
                (stepSpec nodes active empty client idx tasks s0).tasks rest).specs,
             (assignSpecList nodes active empty client
                (stepSpec nodes active empty client idx tasks s0).idx
                (stepSpec nodes active empty client idx tasks s0).tasks rest).idx,
             (assignSpecList nodes active empty client
                (stepSpec nodes active empty client idx tasks s0).idx
                (stepSpec nodes active empty client idx tasks s0).tasks rest).tasks,
             (assignSpecList nodes active empty client
                (stepSpec nodes active empty client idx tasks s0).idx
                (stepSpec nodes active empty client idx tasks s0).tasks rest).aborted⟩ := by
        simp only [assignSpecList]
        rw [if_neg habne]
      rw [hgo, hidx, htasks]
      obtain ⟨ihB, ihG⟩ := ih idx (tasks + (if s0.needSync then 1 else 0))
      constructor
      · intro hany
        rw [List.any_cons, hb, Bool.false_or] at hany
        obtain ⟨hab2, ht2⟩ := ihB hany
        refine ⟨hab2, ?_⟩
        rw [ht2]
        show _ = tasks + tasksUntilBlocked active empty (s0 :: rest)
        rw [tasksUntilBlocked_cons, if_neg hbne]
        omega
      · intro hany
        rw [List.any_cons, hb, Bool.false_or] at hany
        obtain ⟨hab2, hi2, ht2⟩ := ihG hany
        refine ⟨hab2, hi2, ?_⟩
        rw [ht2, List.countP_cons]
        omega

/-- With every node inactive, the outer loop aborts inside the first
registry holding a spec the walk must place; with none it completes. -/
theorem assignRegList_allInactive (nodes : List NNode) (active empty : List String)
    (client : ClientReply) (hall : ∀ n ∈ nodes, n.active = false) :
    ∀ (regs : List TableRegistry) (idx tasks : Nat),
      ((allSpecs regs).any (needsPlacement active empty) = true →
        (assignRegList nodes active empty client idx tasks regs).aborted = true ∧
        (assignRegList nodes active empty client idx tasks regs).tasks
          = tasks + tasksUntilBlocked active empty (allSpecs regs)) ∧
      ((allSpecs regs).any (needsPlacement active empty) = false →
        (assignRegList nodes active empty client idx tasks regs).aborted = false ∧
        (assignRegList nodes active empty client idx tasks regs).idx = idx ∧
        (assignRegList nodes active empty client idx tasks regs).tasks
          = tasks + (allSpecs regs).countP (fun s => s.needSync)) := by
  intro regs
  induction regs with
  | nil =>
    intro idx tasks
    constructor
    · intro hany
      simp [allSpecs] at hany
    · intro _
      refine ⟨rfl, rfl, ?_⟩
      show tasks = tasks + List.countP _ (allSpecs [])
      simp [allSpecs]
  | cons reg rest ih =>
    intro idx tasks
    rw [allSpecs_cons]
    have hinner := assignSpecList_allInactive nodes active empty client hall reg.specs idx tasks
    by_cases hbr : reg.specs.any (needsPlacement active empty) = true
    · obtain ⟨habI, htI⟩ := hinner.1 hbr
      have hgo : assignRegList nodes active empty client idx tasks (reg :: rest)
          = ⟨{ reg with
                specs := (assignSpecList nodes active empty client idx tasks reg.specs).specs }
              :: rest,
             (assignSpecList nodes active empty client idx tasks reg.specs).idx,
             (assignSpecList nodes active empty client idx tasks reg.specs).tasks, true⟩ := by
        simp only [assignRegList]
        rw [if_pos habI]
      constructor
      · intro _
        rw [hgo]
        refine ⟨rfl, ?_⟩
        show (assignSpecList nodes active empty client idx tasks reg.specs).tasks = _
        rw [htI, tasksUntilBlocked_append, if_pos hbr]
      · intro hany
        rw [List.any_append, hbr] at hany
        simp at hany
    · rw [Bool.not_eq_true] at hbr
      have hbrne : ¬ (reg.specs.any (needsPlacement active empty) = true) := by
        rw [hbr]
        exact Bool.false_ne_true
      obtain ⟨habI, hiI, htI⟩ := hinner.2 hbr
      have habne : ¬ ((assignSpecList nodes active empty client idx tasks reg.specs).aborted
          = true) := by
        rw [habI]
        exact Bool.false_ne_true
      have hgo : assignRegList nodes active empty client idx tasks (reg :: rest)
          = ⟨{ reg with
                specs := (assignSpecList nodes active empty client idx tasks reg.specs).specs }
              :: (assignRegList nodes active empty client
                   (assignSpecList nodes active empty client idx tasks reg.specs).idx
                   (assignSpecList nodes active empty client idx tasks reg.specs).tasks
                   rest).regs,
             (assignRegList nodes active empty client
               (assignSpecList nodes active empty client idx tasks reg.specs).idx
               (assignSpecList nodes active empty client idx tasks reg.specs).tasks rest).idx,
             (assignRegList nodes active empty client
               (assignSpecList nodes active empty client idx tasks reg.specs).idx
               (assignSpecList nodes active empty client idx tasks reg.specs).tasks rest).tasks,
             (assignRegList nodes active empty client
               (assignSpecList nodes active empty client idx tasks reg.specs).idx
               (assignSpecList nodes active empty client idx tasks reg.specs).tasks
               rest).aborted⟩ := by
        simp only [assignRegList]
        rw [if_neg habne]
      rw [hgo, hiI, htI]
      obtain ⟨ihB, ihG⟩ := ih idx (tasks + reg.specs.countP (fun s => s.needSync))
      have hanyspl : (reg.specs ++ allSpecs rest).any (needsPlacement active empty)
          = (allSpecs rest).any (needsPlacement active empty) := by
        rw [List.any_append, hbr, Bool.false_or]
      constructor
      · intro hany
        rw [hanyspl] at hany
        obtain ⟨hab2, ht2⟩ := ihB hany
        refine ⟨hab2, ?_⟩
        rw [ht2, tasksUntilBlocked_append, if_neg hbrne]
        omega
      · intro hany
        rw [hanyspl] at hany
        obtain ⟨hab2, hi2, ht2⟩ := ihG hany
        refine ⟨hab2, hi2, ?_⟩
        rw [ht2, List.countP_append]
        omega

/-- C7: `assign` returns (0,0) at once when the node snapshot is empty;
and when every node of a nonempty snapshot is inactive and some spec
needs placement, the run aborts (the outer loop's abort flag is set) and
returns the pair (tasks sent before the first such spec, total number of
nodes). -/
theorem assign_contract (client : ClientReply) (st : RepoState) :
    (st.clusterNodes = [] → assign client st = ((0, 0), st)) ∧
    (st.clusterNodes ≠ [] →
     (∀ n ∈ st.clusterNodes, n.active = false) →
     (allSpecs st.tables).any
       (needsPlacement (activeSpecsOf st.clusterNodes st.bm.data) st.bm.emptySpecs) = true →
     (assignRegList (sortNodes st.clusterNodes)
        (activeSpecsOf st.clusterNodes st.bm.data) st.bm.emptySpecs client 0 0
        st.tables).aborted = true ∧
     (assign client st).1
       = (tasksUntilBlocked (activeSpecsOf st.clusterNodes st.bm.data) st.bm.emptySpecs
            (allSpecs st.tables),
          st.clusterNodes.length)) := by
  constructor
  · intro h
    unfold assign
    rw [h]
    rfl
  · intro hne hall hany
    have hall2 : ∀ n ∈ sortNodes st.clusterNodes, n.active = false := by
      intro n hn
      exact hall n ((mem_sortNodes _ _).mp hn)
    have hreg := assignRegList_allInactive (sortNodes st.clusterNodes)
      (activeSpecsOf st.clusterNodes st.bm.data) st.bm.emptySpecs client hall2
      st.tables 0 0
    obtain ⟨hab, ht⟩ := hreg.1 hany
    refine ⟨hab, ?_⟩
    have hlen0 : (sortNodes st.clusterNodes).length = st.clusterNodes.length :=
      length_sortNodes _
    have hpos : ¬ (st.clusterNodes.length = 0) := by
      intro hz
      exact hne (List.length_eq_zero.mp hz)
    unfold assign
    rw [if_neg (show ¬ ((((sortNodes st.clusterNodes).length == 0) : Bool) = true) from by
      simp only [beq_iff_eq]
      rw [hlen0]
      exact hpos)]
    show ((assignRegList (sortNodes st.clusterNodes)
        (activeSpecsOf st.clusterNodes st.bm.data) st.bm.emptySpecs client 0 0
        st.tables).tasks, (sortNodes st.clusterNodes).length) = _
    rw [ht, hlen0, Nat.zero_add]

/-- C7 witness: the abort clause applied to a concrete single-inactive-
node run, every hypothesis discharged by evaluation. -/
theorem assign_contract_witness :
    (assign cexClient w7State).1
      = (tasksUntilBlocked (activeSpecsOf w7State.clusterNodes w7State.bm.data)
          w7State.bm.emptySpecs (allSpecs w7State.tables), w7State.clusterNodes.length) :=
  ((assign_contract cexClient w7State).2 (by decide) (by decide) (by decide)).2

end Nebula
